import Mathlib

/-!
Verification development for the fetch load balancer (src/balancer.ts).

The balancer distributes requests over a pool of fetch-like backends. Per
backend it tracks a mutable record (request counts, two capacity-10 ring
buffers of statuses and latencies, a last-error timestamp and three scores),
scores backends from those statistics with a time-decay weight, selects the
two best untried backends by a single streaming pass, randomizes between
them, and retries idempotent (GET/HEAD) requests on 5xx responses until the
pool is exhausted.

Modelling conventions:
- JS numbers are modelled as rationals; timestamps and latencies are
  rationals, statuses are naturals.
- The two ring buffers are created as `Array(10)`, a length-10 array of
  holes; they are modelled as `List (Option _)` of length 10, `none` being a
  hole.  JS `filter`, `reduce` and truthiness tests skip or reject holes and
  zero alike, which the model reproduces.
- Mutation of a record is modelled by returning the updated record.
- `toFixed(2)` followed by `parseFloat` is modelled as exact decimal rounding
  to two places.
- Backend object identity (the JS `Set<Backend>` of attempted backends and
  the `old1 != b1` comparison) is modelled by working with the index of each
  backend in the pool list.
- `Math.random` draws, and the values of `Date.now()` at each iteration of
  the dispatch loop, are supplied as oracles indexed by the iteration number.
-/

namespace Balancer

/-- Configuration constants imported from `balancer-config` (externally
supplied plain numeric tunables, per the spec). -/
structure Config where
  LATENCY_DEVIATION_ALLOWED : ℚ
  AVERAGE_LATENCY_EXPECTED : ℚ
  HEALTH_SCORE_WEIGHT : ℚ
  LATENCY_SCORE_WEIGHT : ℚ
  LATENCY_SCORE_INSTABILITY_WEIGHT : ℚ
deriving DecidableEq

/-- The per-backend mutable record (interface `Backend` in the source, minus
the opaque `proxy` function, which is modelled separately by a behaviour
oracle). -/
structure Backend where
  requestCount : ℕ
  scoredRequestCount : ℕ
  statuses : List (Option ℕ)
  latencies : List (Option ℚ)
  lastError : ℚ
  healthScore : ℚ
  latencyScore : ℚ
  score : ℚ
  errorCount : ℕ
deriving DecidableEq

/-- The record built for each backend at pool construction:
counts 0, `Array(10)` hole-filled buffers, scores defaulted to 1. -/
def initBackend : Backend :=
  { requestCount := 0
    scoredRequestCount := 0
    statuses := List.replicate 10 none
    latencies := List.replicate 10 none
    lastError := 0
    healthScore := 1
    latencyScore := 1
    score := 1
    errorCount := 0 }

/-- Model of `parseFloat(x.toFixed(2))`: round to two decimal places. -/
def round2 (q : ℚ) : ℚ := (round (q * 100) : ℤ) / 100

/-- JS `c && v` for a boolean left operand and numeric right operand: the
result is falsy (0) unless the condition holds, in which case it is `v`. -/
def jsAndQ (c : Prop) [Decidable c] (v : ℚ) : ℚ := if c then v else 0

/-- JS `x || y` on numbers: `x` if truthy (non-zero), else `y`. -/
def jsOrQ (x y : ℚ) : ℚ := if x ≠ 0 then x else y

/-- The time-decay weight of `score` (the `timeWeight` chain of `||`s in the
source).  The first clause `(backend.lastError === 0 && 0)` is modelled
faithfully: a JS conjunction whose right operand is `0` yields a falsy value,
so that clause never supplies the result and the chain falls through to the
elapsed-time step function. -/
def timeWeight (lastError errorBasis : ℚ) : ℚ :=
  let timeSinceError := errorBasis - lastError
  jsOrQ (jsAndQ (lastError = 0) 0)
    (jsOrQ (jsAndQ (timeSinceError < 1000) 1)
      (jsOrQ (jsAndQ (timeSinceError < 3000) (8/10))
        (jsOrQ (jsAndQ (timeSinceError < 5000) (3/10))
          (jsOrQ (jsAndQ (timeSinceError < 10000) (1/10)) 0))))

/-- `latencies.filter(l => !!l).length`: the number of truthy entries of the
latency buffer.  A hole (`none`) and a zero latency are both falsy. -/
def measuredCount (latencies : List (Option ℚ)) : ℕ :=
  (latencies.filter (fun o => decide (o.getD 0 ≠ 0))).length

/-- The `errors` reduce of `score`: counts buffer entries that are truthy
numbers in `[500, 600)`.  Holes are skipped by JS `reduce`. -/
def errorStatusCount (statuses : List (Option ℕ)) : ℕ :=
  statuses.foldl
    (fun acc o =>
      match o with
      | none => acc
      | some s => if s ≠ 0 ∧ 500 ≤ s ∧ s < 600 then acc + 1 else acc)
    0

/-- `latencies.sort(comparator)`: JS sorts the non-hole entries ascending and
moves holes to the end (and mutates the array in place; the caller of this
model writes the result back into the record). -/
def sortLatencies (ls : List (Option ℚ)) : List (Option ℚ) :=
  (((ls.filterMap id).insertionSort (· ≤ ·)).map some) ++
    List.replicate (ls.length - (ls.filterMap id).length) none

/-- One step of the `sortedLatencies.reduce` fold of `score`: the pair is
(running average, count beyond the allowed deviation).  JS `reduce` skips
holes. -/
def latencyFoldStep (dev : ℚ) (p : ℚ × ℕ) (o : Option ℚ) : ℚ × ℕ :=
  match o with
  | none => p
  | some l => if |p.1 - l| < dev then ((p.1 + l) / 2, p.2) else (p.1, p.2 + 1)

/-- `sortedLatencies[Math.floor(measuresTaken / 2)]`, the middle latency used
to seed the averaging fold (`undefined` cannot occur on the live path, which
guarantees at least 2 measured samples). -/
def middleLatencyOf (sorted : List (Option ℚ)) (measuresTaken : ℕ) : ℚ :=
  (sorted.getD (measuresTaken / 2) none).getD 0

/-- The `sortedLatencies.reduce` fold computing `averageLatency` (first
component) and `beyondAllowedLatencyDeviation` (second component). -/
def latencyFoldOf (cfg : Config) (sorted : List (Option ℚ)) (middleLatency : ℚ) :
    ℚ × ℕ :=
  sorted.foldl (latencyFoldStep cfg.LATENCY_DEVIATION_ALLOWED) (middleLatency, 0)

/-- `pingScore`: 1 when `latencyDiscrepancy = averageLatency / expected` is
at most 1, otherwise `expected / averageLatency`. -/
def pingScoreOf (cfg : Config) (averageLatency : ℚ) : ℚ :=
  if averageLatency / cfg.AVERAGE_LATENCY_EXPECTED ≤ 1 then 1
  else cfg.AVERAGE_LATENCY_EXPECTED / averageLatency

/-- `instabilityScore = 1 - correctedLatencyDeviationCount / measuresTaken`. -/
def instabilityScoreOf (correctedLatencyDeviationCount measuresTaken : ℕ) : ℚ :=
  1 - ((correctedLatencyDeviationCount : ℚ) / (measuresTaken : ℚ))

/-- `rawLatencyScore`: the rounded mix of `pingScore` (weighted by
`LATENCY_SCORE_PING_WEIGHT = 1 - LATENCY_SCORE_INSTABILITY_WEIGHT`) and
`instabilityScore` (weighted by `LATENCY_SCORE_INSTABILITY_WEIGHT`). -/
def rawLatencyScoreOf (cfg : Config) (pingScore instabilityScore : ℚ) : ℚ :=
  round2 (pingScore * (1 - cfg.LATENCY_SCORE_INSTABILITY_WEIGHT) +
    instabilityScore * cfg.LATENCY_SCORE_INSTABILITY_WEIGHT)

/-- The scorer (`score(backend, errorBasis?)` in the source).  Returns the
updated record and the `[healthScore, latencyScore, score]` triple.  With
fewer than 2 measured latency samples it returns `(0,0,0)` and leaves the
record untouched.  Otherwise it computes the decayed health and latency
scores, the weighted combined score, writes them (and
`scoredRequestCount := requestCount`) into the record, and also writes back
the latency buffer sorted in place by `Array.prototype.sort`. -/
def score (cfg : Config) (b : Backend) (errorBasis : ℚ) : Backend × (ℚ × ℚ × ℚ) :=
  let tw := timeWeight b.lastError errorBasis
  let measuresTaken := measuredCount b.latencies
  if measuresTaken < 2 then (b, (0, 0, 0)) else
  let errors := errorStatusCount b.statuses
  let healthScore := round2 (1 - tw * ((errors : ℚ) / (measuresTaken : ℚ)))
  let sortedLatencies := sortLatencies b.latencies
  let middleLatency := middleLatencyOf sortedLatencies measuresTaken
  let folded := latencyFoldOf cfg sortedLatencies middleLatency
  let averageLatency := folded.1
  let beyondAllowedLatencyDeviation := folded.2
  let correctedLatencyDeviationCount :=
    if 3 < measuresTaken then beyondAllowedLatencyDeviation else 0
  let instabilityScore := instabilityScoreOf correctedLatencyDeviationCount measuresTaken
  let pingScore := pingScoreOf cfg averageLatency
  let rawLatencyScore := rawLatencyScoreOf cfg pingScore instabilityScore
  let latencyScore := round2 (1 - tw * rawLatencyScore)
  let sc := healthScore * cfg.HEALTH_SCORE_WEIGHT + latencyScore * cfg.LATENCY_SCORE_WEIGHT
  ({ b with
      scoredRequestCount := b.requestCount
      healthScore := healthScore
      latencyScore := latencyScore
      score := sc
      latencies := sortedLatencies },
    (healthScore, latencyScore, sc))

/-- The ordering used by the selector (`bestBackend` condition): higher
combined score wins, ties broken toward the lower request count. -/
def betterThan (b1 b2 : Backend) : Prop :=
  b1.score > b2.score ∨ (b1.score = b2.score ∧ b1.requestCount < b2.requestCount)

instance (b1 b2 : Backend) : Decidable (betterThan b1 b2) := by
  unfold betterThan; infer_instance

/-- `bestBackend(b1, b2)` from the source. -/
def bestBackend (b1 b2 : Backend) : Backend :=
  if betterThan b1 b2 then b1 else b2

/-- The backend of the pool at index `i` (a JS object reference). -/
def poolGet (pool : List Backend) (i : ℕ) : Backend := pool.getD i initBackend

/-- `bestBackend` lifted to pool indices, which model object identity. -/
def bestIdx (pool : List Backend) (i j : ℕ) : ℕ :=
  if betterThan (poolGet pool i) (poolGet pool j) then i else j

/-- One iteration of the `chooseBackends` for-loop body on an untried
backend `i`, acting on the pair of currently held candidates.  The source
compares `old1 != b1` by object reference; on distinct pool indices this is
the index comparison `bestIdx pool i b1 ≠ b1`. -/
def chooseStep (pool : List Backend) (st : Option ℕ × Option ℕ) (i : ℕ) :
    Option ℕ × Option ℕ :=
  match st with
  | (none, b2) => (some i, b2)
  | (some b1, none) => (some b1, some i)
  | (some b1, some b2) =>
    let b1' := bestIdx pool i b1
    if b1' ≠ b1 then (some b1', some (bestIdx pool b1 b2))
    else (some b1, some (bestIdx pool i b2))

/-- The indices the `chooseBackends` loop actually processes: every pool
index, in order, skipping members of the attempted set. -/
def untriedIdxs (pool : List Backend) (attempted : List ℕ) : List ℕ :=
  (List.range pool.length).filter (fun i => decide (i ∉ attempted))

/-- `chooseBackends(backends, attempted)`: streaming top-2 selection over the
untried backends, returning pool indices. -/
def chooseBackends (pool : List Backend) (attempted : List ℕ) :
    Option ℕ × Option ℕ :=
  (untriedIdxs pool attempted).foldl (chooseStep pool) (none, none)

/-- Tags distinguishing the three response objects the dispatcher can
return: a response produced by a backend, the shared `proxyError` object, and
the "No backend available" response. -/
inductive RespTag where
  | fromBackend
  | proxyErr
  | noBackend
deriving DecidableEq

/-- A response, reduced to its status code and provenance. -/
structure Resp where
  status : ℕ
  tag : RespTag
deriving DecidableEq

/-- `new Response("couldn't connect to origin", { status: 502 })`. -/
def proxyError : Resp := ⟨502, RespTag.proxyErr⟩

/-- `new Response("No backend available", { status: 502 })`. -/
def noBackendResp : Resp := ⟨502, RespTag.noBackend⟩

/-- The outcome of one transport invocation: `none` models a thrown or
rejected promise, `some (s, l)` a response with status `s` after `l` ms. -/
def respOf (outcome : Option (ℕ × ℚ)) : Resp :=
  match outcome with
  | none => proxyError
  | some (s, _) => ⟨s, RespTag.fromBackend⟩

/-- The latency recorded for one transport invocation; a thrown transport
leaves the `latency` variable at its initial 0. -/
def latencyOf (outcome : Option (ℕ × ℚ)) : ℚ :=
  match outcome with
  | none => 0
  | some (_, l) => l

/-- The ring-buffer write of the dispatcher (source lines around
`backend.statuses[(backend.requestCount - 1) % backend.statuses.length]`).
`requestCount` has already been incremented.  The growth branch is kept for
fidelity; it is dead, because the buffers are created at length 10. -/
def recordObs (b : Backend) (status : ℕ) (latency : ℚ) : Backend :=
  if b.statuses.length < 10 then
    { b with
        statuses := b.statuses ++ [some status]
        latencies := b.latencies ++ [some latency] }
  else
    { b with
        statuses := b.statuses.set ((b.requestCount - 1) % b.statuses.length) (some status)
        latencies := b.latencies.set ((b.requestCount - 1) % b.latencies.length) (some latency) }

/-- `canRetry(req, resp)`: never retry a sub-500 response; retry only the
case-sensitively GET or HEAD methods. -/
def canRetry (method : String) (resp : Resp) : Bool :=
  if resp.status < 500 then false
  else if method = "GET" ∨ method = "HEAD" then true
  else false

/-- Everything one dispatch iteration does to the chosen backend record:
rescore if stale, increment `requestCount`, write status and latency into the
ring buffers, and on a 5xx status set `lastError` and rescore. -/
def attemptUpdate (cfg : Config) (b : Backend) (outcome : Option (ℕ × ℚ)) (now : ℚ) :
    Backend :=
  let b1 := if b.scoredRequestCount ≠ b.requestCount then (score cfg b now).1 else b
  let b2 := { b1 with requestCount := b1.requestCount + 1 }
  let resp := respOf outcome
  let b3 := recordObs b2 resp.status (latencyOf outcome)
  if 500 ≤ resp.status ∧ resp.status < 600 then
    (score cfg { b3 with lastError := now } now).1
  else b3

/-- The choice between the two selected candidates:
`!backendB ? backendA : (Math.floor(Math.random() * 2) == 0) ? backendA : backendB`,
with the random draw supplied as a boolean (`true` picks the first). -/
def pickIdx (c : Bool) (i1 : ℕ) : Option ℕ → ℕ
  | none => i1
  | some i2 => if c then i1 else i2

/-- The `while (attempted.size < tracked.length)` dispatch loop of
`fetchBalancer`.  `beh i` is the outcome backend `i` produces for this call,
`coin k` the random draw and `now k` the clock at iteration `k`.  Fuel makes
the recursion structural; `pool.length` fuel is enough (each iteration grows
the attempted set), and running out returns the same `proxyError` as the
loop exit. -/
def fetchLoop (cfg : Config) (method : String) (beh : ℕ → Option (ℕ × ℚ))
    (coin : ℕ → Bool) (now : ℕ → ℚ) :
    List Backend → List ℕ → ℕ → List Backend × Resp × List ℕ
  | pool, attempted, 0 => (pool, proxyError, attempted)
  | pool, attempted, fuel + 1 =>
    if attempted.length < pool.length then
      match chooseBackends pool attempted with
      | (none, _) => (pool, noBackendResp, attempted)
      | (some i1, ob2) =>
        let idx := pickIdx (coin attempted.length) i1 ob2
        let resp := respOf (beh idx)
        let pool' := pool.set idx
          (attemptUpdate cfg (poolGet pool idx) (beh idx) (now attempted.length))
        let attempted' := attempted ++ [idx]
        if 500 ≤ resp.status ∧ resp.status < 600 then
          if canRetry method resp then fetchLoop cfg method beh coin now pool' attempted' fuel
          else (pool', resp, attempted')
        else (pool', resp, attempted')
    else (pool, proxyError, attempted)

/-- `fetchBalancer(req, init)` for one call: run the dispatch loop on a fresh
attempted set.  Returns the final pool, the response, and the list of
attempted pool indices in order. -/
def fetchBalancer (cfg : Config) (method : String) (beh : ℕ → Option (ℕ × ℚ))
    (coin : ℕ → Bool) (now : ℕ → ℚ) (pool : List Backend) :
    List Backend × Resp × List ℕ :=
  fetchLoop cfg method beh coin now pool [] pool.length

/-- Total dispatch attempts across the whole pool. -/
def totalRequests (pool : List Backend) : ℕ :=
  (pool.map (fun b => b.requestCount)).sum

/-- One observed dispatch to a single backend, recording only what the loop
records into the record between selection and the retry decision:
`requestCount += 1` followed by the ring-buffer write. -/
def applyObs (b : Backend) (o : ℕ × ℚ) : Backend :=
  recordObs { b with requestCount := b.requestCount + 1 } o.1 o.2

/-- `betterThan` lifted to pool indices. -/
def sbi (pool : List Backend) (i j : ℕ) : Prop :=
  betterThan (poolGet pool i) (poolGet pool j)

instance (pool : List Backend) (i j : ℕ) : Decidable (sbi pool i j) := by
  unfold sbi; infer_instance

/-- Invariant of the `chooseBackends` loop: after processing the untried
indices `processed`, the held pair is exactly the streaming top-2 of
`processed` under the `bestBackend` ordering: both candidates were processed,
they are distinct, and no other processed index beats either of them. -/
def ChooseInv (pool : List Backend) (processed : List ℕ) :
    Option ℕ × Option ℕ → Prop
  | (none, none) => processed = []
  | (some a, none) => processed = [a]
  | (none, some _) => False
  | (some a, some b) =>
    a ∈ processed ∧ b ∈ processed ∧ a ≠ b ∧ 2 ≤ processed.length ∧
      ∀ j ∈ processed, j ≠ a → j ≠ b → ¬ sbi pool j a ∧ ¬ sbi pool j b

/-- A sample configuration used for concrete evaluations (the repository
keeps the actual values outside the balancer source, in `balancer-config`). -/
def cfg0 : Config := ⟨500, 100, 1/2, 1/2, 1/2⟩

/-- A backend record with a given combined score and request count. -/
def bk (s : ℚ) (rc : ℕ) : Backend :=
  { initBackend with score := s, requestCount := rc }

/-- A three-backend pool with distinct scores, for concrete selections. -/
def poolW : List Backend := [bk 5 0, bk 1 0, bk 3 0]

/-- A record whose two ring buffers hold two positionally aligned
observations: attempt 0 was (status 200, 7 ms), attempt 1 (status 500, 3 ms). -/
def alignBackend : Backend :=
  { initBackend with
      requestCount := 2
      statuses := [some 200, some 500] ++ List.replicate 8 none
      latencies := [some 7, some 3] ++ List.replicate 8 none }

/-- A record after three transport failures (status 502, latency 0) and two
fast successes, with a fresh `lastError`: more error statuses than measured
latency samples. -/
def cexBackend : Backend :=
  { initBackend with
      requestCount := 5
      statuses := [some 502, some 502, some 502, some 200, some 200] ++ List.replicate 5 none
      latencies := [some 0, some 0, some 0, some 5, some 5] ++ List.replicate 5 none
      lastError := 5000 }

/-- A healthy record with two measured samples, one historical 5xx. -/
def demoBackend : Backend :=
  { initBackend with
      requestCount := 2
      statuses := [some 500, some 200] ++ List.replicate 8 none
      latencies := [some 50, some 60] ++ List.replicate 8 none
      lastError := 1000 }

/-- Eleven observations with recognizable statuses, for ring-buffer runs. -/
def obs11 : List (ℕ × ℚ) := (List.range 11).map (fun k => (201 + k, 0))

end Balancer

namespace Balancer

theorem round2_zero : round2 0 = 0 := by
  simp [round2]

theorem round2_one : round2 1 = 1 := by
  have h : round ((1 : ℚ) * 100) = 100 := by
    rw [one_mul]
    exact_mod_cast round_natCast (α := ℚ) 100
  rw [round2, h]
  norm_num

theorem round2_mono {x y : ℚ} (h : x ≤ y) : round2 x ≤ round2 y := by
  unfold round2
  have hr : round (x * 100) ≤ round (y * 100) := by
    rw [round_eq, round_eq]
    exact Int.floor_mono (by linarith)
  have hc : ((round (x * 100) : ℤ) : ℚ) ≤ ((round (y * 100) : ℤ) : ℚ) := by
    exact_mod_cast hr
  linarith

theorem round2_unit {x : ℚ} (h0 : 0 ≤ x) (h1 : x ≤ 1) :
    0 ≤ round2 x ∧ round2 x ≤ 1 := by
  constructor
  · have := round2_mono h0
    rwa [round2_zero] at this
  · have := round2_mono h1
    rwa [round2_one] at this

theorem timeWeight_eq (lastError basis : ℚ) :
    timeWeight lastError basis =
      (if basis - lastError < 1000 then 1
       else if basis - lastError < 3000 then 8/10
       else if basis - lastError < 5000 then 3/10
       else if basis - lastError < 10000 then 1/10
       else 0) := by
  simp only [timeWeight, jsOrQ, jsAndQ]
  by_cases h1 : basis - lastError < 1000 <;>
    by_cases h2 : basis - lastError < 3000 <;>
      by_cases h3 : basis - lastError < 5000 <;>
        by_cases h4 : basis - lastError < 10000 <;>
          simp [h1, h2, h3, h4]

theorem timeWeight_nonneg (lastError basis : ℚ) : 0 ≤ timeWeight lastError basis := by
  rw [timeWeight_eq]
  split_ifs <;> norm_num

theorem timeWeight_le_one (lastError basis : ℚ) : timeWeight lastError basis ≤ 1 := by
  rw [timeWeight_eq]
  split_ifs <;> norm_num

theorem timeWeight_antitone {lastError e1 e2 : ℚ} (h : e1 ≤ e2) :
    timeWeight lastError (lastError + e2) ≤ timeWeight lastError (lastError + e1) := by
  rw [timeWeight_eq, timeWeight_eq]
  simp only [add_sub_cancel_left]
  split_ifs <;> linarith

theorem betterThan_asymm {a b : Backend} (h : betterThan a b) : ¬ betterThan b a := by
  rcases h with h | ⟨he, hr⟩
  · rintro (h' | ⟨he', _⟩)
    · linarith
    · linarith
  · rintro (h' | ⟨_, hr'⟩)
    · linarith
    · omega

theorem betterThan_trans {a b c : Backend} (h1 : betterThan a b) (h2 : betterThan b c) :
    betterThan a c := by
  rcases h1 with h1 | ⟨he1, hr1⟩ <;> rcases h2 with h2 | ⟨he2, hr2⟩
  · exact Or.inl (by linarith)
  · exact Or.inl (by linarith)
  · exact Or.inl (by linarith)
  · exact Or.inr ⟨by linarith, by omega⟩

theorem sbi_asymm {pool : List Backend} {i j : ℕ} (h : sbi pool i j) : ¬ sbi pool j i :=
  betterThan_asymm h

theorem sbi_trans {pool : List Backend} {i j k : ℕ} (h1 : sbi pool i j)
    (h2 : sbi pool j k) : sbi pool i k :=
  betterThan_trans h1 h2

end Balancer

namespace Balancer

theorem score_early {cfg : Config} {b : Backend} {t : ℚ}
    (h : measuredCount b.latencies < 2) :
    (score cfg b t).1 = b ∧ (score cfg b t).2 = (0, 0, 0) := by
  simp [score, h]

theorem score_fst_requestCount (cfg : Config) (b : Backend) (t : ℚ) :
    (score cfg b t).1.requestCount = b.requestCount := by
  simp only [score]
  split <;> rfl

theorem score_fst_statuses (cfg : Config) (b : Backend) (t : ℚ) :
    (score cfg b t).1.statuses = b.statuses := by
  simp only [score]
  split <;> rfl

theorem recordObs_requestCount (b : Backend) (s : ℕ) (l : ℚ) :
    (recordObs b s l).requestCount = b.requestCount := by
  unfold recordObs
  split <;> rfl

theorem recordObs_score_fields (b : Backend) (s : ℕ) (l : ℚ) :
    (recordObs b s l).healthScore = b.healthScore ∧
    (recordObs b s l).latencyScore = b.latencyScore ∧
    (recordObs b s l).score = b.score ∧
    (recordObs b s l).scoredRequestCount = b.scoredRequestCount := by
  unfold recordObs
  split <;> exact ⟨rfl, rfl, rfl, rfl⟩

theorem applyObs_requestCount (b : Backend) (o : ℕ × ℚ) :
    (applyObs b o).requestCount = b.requestCount + 1 := by
  unfold applyObs
  rw [recordObs_requestCount]

end Balancer

namespace Balancer

theorem score_health_eq (cfg : Config) (b : Backend) (t : ℚ)
    (h : ¬ measuredCount b.latencies < 2) :
    (score cfg b t).1.healthScore =
      round2 (1 - timeWeight b.lastError t *
        ((errorStatusCount b.statuses : ℚ) / (measuredCount b.latencies : ℚ))) ∧
    (score cfg b t).2.1 =
      round2 (1 - timeWeight b.lastError t *
        ((errorStatusCount b.statuses : ℚ) / (measuredCount b.latencies : ℚ))) := by
  simp only [score]
  rw [if_neg h]
  exact ⟨rfl, rfl⟩

/-- C7 counterexample: with `lastError = 0` and reference time `0`, the
computed time-decay weight is 1, not the 0 the claim requires for a backend
that has never seen an error. -/
theorem timeWeight_zero_lastError : timeWeight 0 0 = 1 ∧ (1 : ℚ) ≠ 0 :=
  ⟨by rw [timeWeight_eq]; norm_num, by norm_num⟩

/-- C7 (amended): the time-decay weight is the step function of
`elapsed = now - lastError` in every case — 1 for elapsed below 1000 ms, 0.8
below 3000 ms, 0.3 below 5000 ms, 0.1 below 10000 ms, and 0 from 10000 ms on.
The `lastError == 0` clause of the source is inert (its conjunction with `0`
is falsy and falls through), so for `lastError == 0` the weight is the step
function of `now` itself, which is 0 for any clock value of at least 10
seconds — in particular for every real epoch timestamp. -/
theorem timeWeight_step_function (lastError basis : ℚ) :
    timeWeight lastError basis =
      (if basis - lastError < 1000 then 1
       else if basis - lastError < 3000 then 8/10
       else if basis - lastError < 5000 then 3/10
       else if basis - lastError < 10000 then 1/10
       else 0) ∧
    (lastError = 0 → 10000 ≤ basis → timeWeight lastError basis = 0) := by
  refine ⟨timeWeight_eq _ _, fun h0 hb => ?_⟩
  rw [timeWeight_eq, h0, sub_zero]
  split_ifs <;> linarith

theorem timeWeight_step_function_witness : timeWeight 0 20000 = 0 :=
  (timeWeight_step_function 0 20000).2 rfl (by norm_num)

/-- C2: the scorer is not side-effect free on the record: it sorts the
latency ring buffer in place (`latencies.sort(...)` mutates the array), so
after a scoring pass the statuses and latencies buffers are no longer
positionally aligned.  On a record whose attempts were (status 200, 7 ms)
then (status 500, 3 ms), scoring leaves statuses untouched but reorders
latencies to [3, 7]: index 0 now pairs status 200 with the latency of the
other attempt. -/
theorem score_unaligns_buffers :
    (score cfg0 alignBackend 0).1.statuses = alignBackend.statuses ∧
    (score cfg0 alignBackend 0).1.latencies ≠ alignBackend.latencies ∧
    (score cfg0 alignBackend 0).1.latencies = [some 3, some 7] ++ List.replicate 8 none := by
  refine ⟨by decide, by decide, by decide⟩

/-- C3 counterexample: a record holding three transport failures (status 502,
latency 0) and two measured successes, scored just after an error, stores
`healthScore = -0.5`: the error count (3) exceeds the measured sample count
(2), so the stored health score falls outside `[0,1]`. -/
theorem healthScore_negative :
    (score cfg0 cexBackend 5000).1.healthScore = -(1/2) ∧
    ¬ (0 ≤ (score cfg0 cexBackend 5000).1.healthScore) := by
  have hm : measuredCount cexBackend.latencies = 2 := by decide
  have he : errorStatusCount cexBackend.statuses = 3 := by decide
  have hle : cexBackend.lastError = 5000 := rfl
  have h : (score cfg0 cexBackend 5000).1.healthScore = -(1/2) := by
    rw [(score_health_eq cfg0 cexBackend 5000 (by omega)).1, hm, he, hle]
    have htw : timeWeight 5000 5000 = 1 := by rw [timeWeight_eq]; norm_num
    rw [htw]
    have harg : (1 - 1 * (((3 : ℕ) : ℚ) / ((2 : ℕ) : ℚ))) * 100 = ((-50 : ℤ) : ℚ) := by
      push_cast
      norm_num
    rw [round2, harg, round_intCast]
    norm_num
  exact ⟨h, by rw [h]; norm_num⟩

end Balancer

namespace Balancer


theorem applyObs_buffers {b : Backend} (hs : b.statuses.length = 10)
    (hl : b.latencies.length = 10) (o : ℕ × ℚ) :
    (applyObs b o).statuses = b.statuses.set (b.requestCount % 10) (some o.1) ∧
    (applyObs b o).latencies = b.latencies.set (b.requestCount % 10) (some o.2) := by
  simp only [applyObs, recordObs]
  rw [if_neg (show ¬ b.statuses.length < 10 by omega)]
  have hc : b.requestCount + 1 - 1 = b.requestCount := by omega
  constructor
  · simp only [hc, hs]
  · simp only [hc, hl]

theorem foldl_applyObs_inv (obs : List (ℕ × ℚ)) :
    (obs.foldl applyObs initBackend).requestCount = obs.length ∧
    (obs.foldl applyObs initBackend).statuses.length = 10 ∧
    (obs.foldl applyObs initBackend).latencies.length = 10 ∧
    ∀ k, k < obs.length → obs.length ≤ k + 10 →
      ((obs.foldl applyObs initBackend).statuses)[k % 10]? = some (some (obs.getD k (0, 0)).1) ∧
      ((obs.foldl applyObs initBackend).latencies)[k % 10]? = some (some (obs.getD k (0, 0)).2) := by
  induction obs using List.reverseRecOn with
  | nil =>
    refine ⟨rfl, rfl, rfl, ?_⟩
    intro k hk
    simp at hk
  | append_singleton as o ih =>
    obtain ⟨ihrc, ihs, ihl, ihw⟩ := ih
    obtain ⟨hstat, hlat⟩ := applyObs_buffers ihs ihl o
    rw [ihrc] at hstat hlat
    rw [List.foldl_append]
    simp only [List.foldl_cons, List.foldl_nil]
    refine ⟨?_, ?_, ?_, ?_⟩
    · rw [applyObs_requestCount, ihrc, List.length_append]
      rfl
    · rw [hstat, List.length_set, ihs]
    · rw [hlat, List.length_set, ihl]
    · intro k hk hbound
      rw [List.length_append] at hk hbound
      simp only [List.length_cons, List.length_nil] at hk hbound
      by_cases hke : k = as.length
      · subst hke
        have hidx : as.length % 10 < (as.foldl applyObs initBackend).statuses.length := by
          rw [ihs]; omega
        have hidx2 : as.length % 10 < (as.foldl applyObs initBackend).latencies.length := by
          rw [ihl]; omega
        have hgd : (as ++ [o]).getD as.length (0, 0) = o := by
          rw [List.getD_eq_getElem?_getD, List.getElem?_append_right (le_refl _)]
          simp
        rw [hstat, hlat, hgd, List.getElem?_set_self hidx, List.getElem?_set_self hidx2]
        exact ⟨rfl, rfl⟩
      · have hklt : k < as.length := by omega
        have hne : as.length % 10 ≠ k % 10 := by omega
        have hgd : (as ++ [o]).getD k (0, 0) = as.getD k (0, 0) := by
          rw [List.getD_eq_getElem?_getD, List.getD_eq_getElem?_getD,
            List.getElem?_append, if_pos hklt]
        have := ihw k hklt (by omega)
        rw [hstat, hlat, hgd, List.getElem?_set_ne hne, List.getElem?_set_ne hne]
        exact this

/-- C4 counterexample: after 11 dispatch attempts with statuses 201..211, the
statuses buffer is not "the 10 most recent observations in arrival order":
the 11th observation overwrote slot 0, so the buffer is the rotation
[211, 202, ..., 210], not [202, ..., 211]. -/
theorem ring_buffer_not_arrival_order :
    (obs11.foldl applyObs initBackend).statuses ≠
      (obs11.drop 1).map (fun p => some p.1) := by
  decide

/-- C4 (amended): the ring buffers keep length exactly 10 forever; each new
observation is written at index `requestCount mod 10` (the count before the
increment for this attempt); and after at least 10 attempts the buffers hold
exactly the 10 most recent observations, observation `k` stored at slot
`k mod 10` — a rotation of arrival order, which coincides with arrival order
exactly when the attempt count is a multiple of 10 (as in the repository test
with 20 requests).  This describes the recording discipline itself; a scoring
pass additionally reorders the latency buffer in place (see the C2 result). -/
theorem ring_buffer_rotated (obs : List (ℕ × ℚ)) (h : 10 ≤ obs.length) :
    (obs.foldl applyObs initBackend).statuses.length = 10 ∧
    (obs.foldl applyObs initBackend).latencies.length = 10 ∧
    (∀ k, obs.length - 10 ≤ k → k < obs.length →
      ((obs.foldl applyObs initBackend).statuses)[k % 10]? = some (some (obs.getD k (0, 0)).1) ∧
      ((obs.foldl applyObs initBackend).latencies)[k % 10]? = some (some (obs.getD k (0, 0)).2)) ∧
    (∀ (b : Backend) (s : ℕ) (l : ℚ), b.statuses.length = 10 → b.latencies.length = 10 →
      ((applyObs b (s, l)).statuses)[b.requestCount % 10]? = some (some s) ∧
      ((applyObs b (s, l)).latencies)[b.requestCount % 10]? = some (some l)) := by
  obtain ⟨hrc, hs, hl, hw⟩ := foldl_applyObs_inv obs
  refine ⟨hs, hl, fun k h1 h2 => hw k h2 (by omega), ?_⟩
  intro b s l hbs hbl
  obtain ⟨h1, h2⟩ := applyObs_buffers hbs hbl (s, l)
  rw [h1, h2]
  constructor
  · rw [List.getElem?_set_self (by rw [hbs]; omega)]
  · rw [List.getElem?_set_self (by rw [hbl]; omega)]

theorem ring_buffer_rotated_witness :
    10 ≤ obs11.length ∧
    ((obs11.foldl applyObs initBackend).statuses)[5 % 10]? =
      some (some (obs11.getD 5 (0, 0)).1) :=
  ⟨by decide, ((ring_buffer_rotated obs11 (by decide)).2.2.1 5 (by decide) (by decide)).1⟩

end Balancer

namespace Balancer

/-- C8: for a fixed error history with at least two measured samples, the
health score computed at elapsed 999 ms equals the one computed at elapsed 0;
the health score is non-decreasing in elapsed (so it rises, or stays equal,
across each of the 1000/3000/5000/10000 ms decay boundaries); and from
elapsed 10000 ms on, the decay weight vanishes and the health score is
exactly 1, the un-decayed value. -/
theorem healthScore_decay_monotone (cfg : Config) (b : Backend)
    (h : 2 ≤ measuredCount b.latencies) :
    ((score cfg b (b.lastError + 999)).2.1 = (score cfg b (b.lastError + 0)).2.1) ∧
    (∀ e1 e2 : ℚ, 0 ≤ e1 → e1 ≤ e2 →
      (score cfg b (b.lastError + e1)).2.1 ≤ (score cfg b (b.lastError + e2)).2.1) ∧
    (∀ e : ℚ, 10000 ≤ e → (score cfg b (b.lastError + e)).2.1 = 1) := by
  have hnm : ¬ measuredCount b.latencies < 2 := by omega
  have hq0 : 0 ≤ (errorStatusCount b.statuses : ℚ) / (measuredCount b.latencies : ℚ) := by
    positivity
  refine ⟨?_, ?_, ?_⟩
  · rw [(score_health_eq cfg b _ hnm).2, (score_health_eq cfg b _ hnm).2]
    have h1 : timeWeight b.lastError (b.lastError + 999) = 1 := by
      rw [timeWeight_eq]
      simp only [add_sub_cancel_left]
      norm_num
    have h2 : timeWeight b.lastError (b.lastError + 0) = 1 := by
      rw [timeWeight_eq]
      simp only [add_sub_cancel_left]
      norm_num
    rw [h1, h2]
  · intro e1 e2 he1 h12
    rw [(score_health_eq cfg b _ hnm).2, (score_health_eq cfg b _ hnm).2]
    apply round2_mono
    have hmul := mul_le_mul_of_nonneg_right
      (@timeWeight_antitone b.lastError e1 e2 h12) hq0
    linarith
  · intro e he
    rw [(score_health_eq cfg b _ hnm).2]
    have h0 : timeWeight b.lastError (b.lastError + e) = 0 := by
      rw [timeWeight_eq]
      simp only [add_sub_cancel_left]
      split_ifs <;> linarith
    rw [h0, zero_mul, sub_zero, round2_one]

theorem healthScore_decay_monotone_witness :
    2 ≤ measuredCount demoBackend.latencies ∧
    (score cfg0 demoBackend (demoBackend.lastError + 10000)).2.1 = 1 :=
  ⟨by decide, (healthScore_decay_monotone cfg0 demoBackend (by decide)).2.2 10000 (by norm_num)⟩

theorem measuredCount_eq_countP (ls : List (Option ℚ)) :
    measuredCount ls = (ls.filterMap id).countP (fun x => decide (x ≠ 0)) := by
  induction ls with
  | nil => rfl
  | cons o tl ih =>
    cases o with
    | none =>
      simp only [measuredCount, List.filter_cons, List.filterMap_cons] at *
      simpa using ih
    | some x =>
      simp only [measuredCount, List.filter_cons, List.filterMap_cons, List.countP_cons] at *
      by_cases hx : x = 0 <;> simp [hx] at * <;> omega

theorem measuredCount_sortLatencies (ls : List (Option ℚ)) :
    measuredCount (sortLatencies ls) = measuredCount ls := by
  rw [measuredCount_eq_countP, measuredCount_eq_countP]
  unfold sortLatencies
  rw [List.filterMap_append]
  have h1 : ∀ n, List.filterMap (id : Option ℚ → Option ℚ) (List.replicate n none) = [] := by
    intro n
    induction n with
    | zero => rfl
    | succ n ih => simp [List.replicate_succ, List.filterMap_cons, ih]
  have h2 : List.filterMap (id : Option ℚ → Option ℚ)
      (((ls.filterMap id).insertionSort (· ≤ ·)).map some) =
      (ls.filterMap id).insertionSort (· ≤ ·) := by
    rw [List.filterMap_map]
    simp [Function.comp_def]
  rw [h1, h2, List.countP_append, List.countP_nil]
  rw [(List.perm_insertionSort (· ≤ ·) (ls.filterMap id)).countP_eq]
  omega

end Balancer

namespace Balancer

/-- C10: a backend record with fewer than two non-zero latency samples keeps
its construction-time defaults: the record is created with all three scores 1
and `scoredRequestCount` 0; the scorer returns without touching such a
record; a dispatch iteration on such a record (as long as its buffer still
holds fewer than two measured samples afterwards) leaves its health, latency
and combined scores and its `scoredRequestCount` unchanged; and the selector
ordering ranks such a default-scored record strictly above any record whose
combined score is below 1. -/
theorem unmeasured_backend_defaults :
    (initBackend.healthScore = 1 ∧ initBackend.latencyScore = 1 ∧
      initBackend.score = 1 ∧ initBackend.scoredRequestCount = 0) ∧
    (∀ (cfg : Config) (b : Backend) (t : ℚ), measuredCount b.latencies < 2 →
      (score cfg b t).1 = b) ∧
    (∀ (cfg : Config) (b : Backend) (outcome : Option (ℕ × ℚ)) (t : ℚ),
      measuredCount b.latencies < 2 →
      measuredCount (attemptUpdate cfg b outcome t).latencies < 2 →
      (attemptUpdate cfg b outcome t).healthScore = b.healthScore ∧
      (attemptUpdate cfg b outcome t).latencyScore = b.latencyScore ∧
      (attemptUpdate cfg b outcome t).score = b.score ∧
      (attemptUpdate cfg b outcome t).scoredRequestCount = b.scoredRequestCount) ∧
    (∀ b1 b2 : Backend, b1.score = 1 → b2.score < 1 →
      bestBackend b1 b2 = b1 ∧ bestBackend b2 b1 = b1) := by
  refine ⟨⟨rfl, rfl, rfl, rfl⟩, ?_, ?_, ?_⟩
  · intro cfg b t h
    exact (score_early h).1
  · intro cfg b outcome t hlt hlt2
    have hb1 : (if b.scoredRequestCount ≠ b.requestCount then (score cfg b t).1 else b) = b := by
      split
      · exact (score_early hlt).1
      · rfl
    simp only [attemptUpdate] at hlt2 ⊢
    rw [hb1] at hlt2 ⊢
    by_cases hcond : 500 ≤ (respOf outcome).status ∧ (respOf outcome).status < 600
    · rw [if_pos hcond] at hlt2 ⊢
      by_cases hm : measuredCount
          ({ recordObs { b with requestCount := b.requestCount + 1 }
              (respOf outcome).status (latencyOf outcome) with lastError := t } :
            Backend).latencies < 2
      · rw [(score_early hm).1]
        obtain ⟨f1, f2, f3, f4⟩ := recordObs_score_fields
          { b with requestCount := b.requestCount + 1 }
          (respOf outcome).status (latencyOf outcome)
        exact ⟨f1, f2, f3, f4⟩
      · exfalso
        have hlats : (score cfg
            ({ recordObs { b with requestCount := b.requestCount + 1 }
                (respOf outcome).status (latencyOf outcome) with lastError := t } :
              Backend) t).1.latencies =
            sortLatencies (recordObs { b with requestCount := b.requestCount + 1 }
              (respOf outcome).status (latencyOf outcome)).latencies := by
          simp only [score]
          rw [if_neg hm]
        rw [hlats, measuredCount_sortLatencies] at hlt2
        exact hm (by exact hlt2)
    · rw [if_neg hcond] at hlt2 ⊢
      obtain ⟨f1, f2, f3, f4⟩ := recordObs_score_fields
        { b with requestCount := b.requestCount + 1 }
        (respOf outcome).status (latencyOf outcome)
      exact ⟨f1, f2, f3, f4⟩
  · intro b1 b2 h1 h2
    have hbt : betterThan b1 b2 := Or.inl (by rw [h1]; exact h2)
    have hnbt : ¬ betterThan b2 b1 := by
      rintro (h | ⟨he, _⟩)
      · rw [h1] at h
        linarith
      · rw [h1] at he
        linarith
    constructor
    · unfold bestBackend
      rw [if_pos hbt]
    · unfold bestBackend
      rw [if_neg hnbt]

theorem unmeasured_backend_defaults_witness :
    measuredCount initBackend.latencies < 2 ∧
    (score cfg0 initBackend 0).1 = initBackend ∧
    bestBackend initBackend (bk (1/2) 0) = initBackend :=
  ⟨by decide, unmeasured_backend_defaults.2.1 cfg0 initBackend 0 (by decide),
   (unmeasured_backend_defaults.2.2.2 initBackend (bk (1/2) 0) rfl
      (by show ((1:ℚ)/2) < 1; norm_num)).1⟩

end Balancer

namespace Balancer

theorem bestIdx_eq_fst {pool : List Backend} {i j : ℕ} (h : sbi pool i j) :
    bestIdx pool i j = i := by
  unfold bestIdx
  exact if_pos h

theorem bestIdx_eq_snd {pool : List Backend} {i j : ℕ} (h : ¬ sbi pool i j) :
    bestIdx pool i j = j := by
  unfold bestIdx
  exact if_neg h

theorem mem_untriedIdxs {pool : List Backend} {attempted : List ℕ} {j : ℕ} :
    j ∈ untriedIdxs pool attempted ↔ j < pool.length ∧ j ∉ attempted := by
  simp [untriedIdxs, List.mem_filter, List.mem_range]

theorem untriedIdxs_nodup (pool : List Backend) (attempted : List ℕ) :
    (untriedIdxs pool attempted).Nodup :=
  List.Nodup.filter _ (List.nodup_range pool.length)

theorem chooseStep_inv {pool : List Backend} {processed : List ℕ}
    {st : Option ℕ × Option ℕ} {i : ℕ}
    (hInv : ChooseInv pool processed st) (hi : i ∉ processed) :
    ChooseInv pool (processed ++ [i]) (chooseStep pool st i) := by
  obtain ⟨o1, o2⟩ := st
  cases o1 with
  | none =>
    cases o2 with
    | none =>
      simp only [ChooseInv] at hInv
      subst hInv
      simp [chooseStep, ChooseInv]
    | some b => exact absurd hInv (by simp [ChooseInv])
  | some a =>
    cases o2 with
    | none =>
      simp only [ChooseInv] at hInv
      subst hInv
      have hia : i ≠ a := by
        intro h
        exact hi (by simp [h])
      simp only [chooseStep, ChooseInv]
      refine ⟨by simp, by simp, fun h => hia (h.symm), by simp, ?_⟩
      intro j hj hja hjb
      rcases List.mem_append.1 hj with hj | hj
      · rcases List.mem_singleton.1 hj with rfl
        exact absurd rfl hja
      · rcases List.mem_singleton.1 hj with rfl
        exact absurd rfl hjb
    | some b =>
      obtain ⟨ha, hb, hab, hlen, hopt⟩ := hInv
      have hia : i ≠ a := fun h => hi (h ▸ ha)
      have hib : i ≠ b := fun h => hi (h ▸ hb)
      have hmem : ∀ x, x ∈ processed → x ∈ processed ++ [i] := by
        intro x hx
        exact List.mem_append.2 (Or.inl hx)
      have himem : i ∈ processed ++ [i] := List.mem_append.2 (Or.inr (by simp))
      have hlen' : 2 ≤ (processed ++ [i]).length := by
        rw [List.length_append]
        simp only [List.length_cons, List.length_nil]
        omega
      have hsplit : ∀ j, j ∈ processed ++ [i] → j ∈ processed ∨ j = i := by
        intro j hj
        rcases List.mem_append.1 hj with hj | hj
        · exact Or.inl hj
        · exact Or.inr (List.mem_singleton.1 hj)
      simp only [chooseStep]
      by_cases hsb : sbi pool i a
      · rw [bestIdx_eq_fst hsb, if_pos hia]
        by_cases hab2 : sbi pool a b
        · rw [bestIdx_eq_fst hab2]
          simp only [ChooseInv]
          refine ⟨himem, hmem a ha, hia, hlen', ?_⟩
          intro j hj hji hja
          rcases hsplit j hj with hj | rfl
          · by_cases hjb : j = b
            · subst hjb
              refine ⟨?_, sbi_asymm hab2⟩
              exact sbi_asymm (sbi_trans hsb hab2)
            · obtain ⟨h1, h2⟩ := hopt j hj hja hjb
              refine ⟨?_, h1⟩
              intro hcon
              exact h1 (sbi_trans hcon hsb)
          · exact absurd rfl hji
        · rw [bestIdx_eq_snd hab2]
          simp only [ChooseInv]
          refine ⟨himem, hmem b hb, hib, hlen', ?_⟩
          intro j hj hji hjb
          rcases hsplit j hj with hj | rfl
          · by_cases hja : j = a
            · subst hja
              exact ⟨sbi_asymm hsb, hab2⟩
            · obtain ⟨h1, h2⟩ := hopt j hj hja hjb
              refine ⟨?_, h2⟩
              intro hcon
              exact h1 (sbi_trans hcon hsb)
          · exact absurd rfl hji
      · rw [bestIdx_eq_snd hsb, if_neg (by simp)]
        by_cases hib2 : sbi pool i b
        · rw [bestIdx_eq_fst hib2]
          simp only [ChooseInv]
          refine ⟨hmem a ha, himem, fun h => hia h.symm, hlen', ?_⟩
          intro j hj hja hji
          rcases hsplit j hj with hj | rfl
          · by_cases hjb : j = b
            · subst hjb
              refine ⟨?_, sbi_asymm hib2⟩
              intro hcon
              exact hsb (sbi_trans hib2 hcon)
            · obtain ⟨h1, h2⟩ := hopt j hj hja hjb
              refine ⟨h1, ?_⟩
              intro hcon
              exact h2 (sbi_trans hcon hib2)
          · exact absurd rfl hji
        · rw [bestIdx_eq_snd hib2]
          simp only [ChooseInv]
          refine ⟨hmem a ha, hmem b hb, hab, hlen', ?_⟩
          intro j hj hja hjb
          rcases hsplit j hj with hj | rfl
          · exact hopt j hj hja hjb
          · exact ⟨hsb, hib2⟩

theorem foldl_chooseStep_inv (pool : List Backend) :
    ∀ (l processed : List ℕ) (st : Option ℕ × Option ℕ),
      ChooseInv pool processed st → (∀ i ∈ l, i ∉ processed) → l.Nodup →
      ChooseInv pool (processed ++ l) (l.foldl (chooseStep pool) st) := by
  intro l
  induction l with
  | nil =>
    intro processed st h _ _
    simpa using h
  | cons i tl ih =>
    intro processed st hInv hdisj hnd
    rw [List.foldl_cons]
    have h1 := chooseStep_inv hInv (hdisj i (by simp))
    have h2 : ∀ j ∈ tl, j ∉ processed ++ [i] := by
      intro j hj hc
      rcases List.mem_append.1 hc with hc | hc
      · exact hdisj j (by simp [hj]) hc
      · exact (List.nodup_cons.1 hnd).1 (List.mem_singleton.1 hc ▸ hj)
    have h3 := ih (processed ++ [i]) _ h1 h2 (List.nodup_cons.1 hnd).2
    rwa [List.append_assoc, List.singleton_append] at h3

theorem chooseBackends_inv (pool : List Backend) (attempted : List ℕ) :
    ChooseInv pool (untriedIdxs pool attempted) (chooseBackends pool attempted) := by
  have h := foldl_chooseStep_inv pool (untriedIdxs pool attempted) [] (none, none)
    (by simp [ChooseInv]) (by simp) (untriedIdxs_nodup pool attempted)
  simpa [chooseBackends] using h

end Balancer

namespace Balancer

theorem chooseBackends_mem (pool : List Backend) (attempted : List ℕ) :
    (∀ i : ℕ, (chooseBackends pool attempted).1 = some i →
      i ∈ untriedIdxs pool attempted) ∧
    (∀ i : ℕ, (chooseBackends pool attempted).2 = some i →
      i ∈ untriedIdxs pool attempted) ∧
    (untriedIdxs pool attempted ≠ [] →
      ∃ i1 : ℕ, (chooseBackends pool attempted).1 = some i1) := by
  have hInv := chooseBackends_inv pool attempted
  rcases hres : chooseBackends pool attempted with ⟨o1, o2⟩
  rw [hres] at hInv
  simp only [hres]
  cases o1 with
  | none =>
    cases o2 with
    | none =>
      simp only [ChooseInv] at hInv
      exact ⟨by simp, by simp, fun hne => absurd hInv hne⟩
    | some b => exact absurd hInv (by simp [ChooseInv])
  | some a =>
    cases o2 with
    | none =>
      simp only [ChooseInv] at hInv
      refine ⟨?_, by simp, fun _ => ⟨a, rfl⟩⟩
      intro i hi
      cases Option.some.inj hi
      rw [hInv]
      simp
    | some b =>
      obtain ⟨ha, hb, _, _, _⟩ := hInv
      refine ⟨?_, ?_, fun _ => ⟨a, rfl⟩⟩
      · intro i hi
        cases Option.some.inj hi
        exact ha
      · intro i hi
        cases Option.some.inj hi
        exact hb

/-- C1: `chooseBackends(records, attempted)` returns the top two untried
records: the first result is absent exactly when no untried record remains,
the second exactly when fewer than two remain; every returned index is an
untried pool index — never one in the attempted set; the two returned
indices are distinct; and no untried record that was not returned is
strictly better (higher combined score, or equal score and strictly lower
request count) than either returned record.  With distinct scores this makes
the returned pair exactly the two highest-scoring untried records, ties
broken toward the lower request count. -/
theorem chooseBackends_top_two (pool : List Backend) (attempted : List ℕ) :
    ((chooseBackends pool attempted).1 = none ↔ untriedIdxs pool attempted = []) ∧
    ((chooseBackends pool attempted).2 = none ↔ (untriedIdxs pool attempted).length < 2) ∧
    (∀ i : ℕ, ((chooseBackends pool attempted).1 = some i ∨
        (chooseBackends pool attempted).2 = some i) →
      i < pool.length ∧ i ∉ attempted) ∧
    (∀ i j : ℕ, (chooseBackends pool attempted).1 = some i →
      (chooseBackends pool attempted).2 = some j → i ≠ j) ∧
    (∀ i j : ℕ, ((chooseBackends pool attempted).1 = some i ∨
        (chooseBackends pool attempted).2 = some i) →
      j ∈ untriedIdxs pool attempted →
      (chooseBackends pool attempted).1 ≠ some j →
      (chooseBackends pool attempted).2 ≠ some j →
      ¬ betterThan (poolGet pool j) (poolGet pool i)) := by
  have hInv := chooseBackends_inv pool attempted
  rcases hres : chooseBackends pool attempted with ⟨o1, o2⟩
  rw [hres] at hInv
  simp only [hres]
  cases o1 with
  | none =>
    cases o2 with
    | none =>
      simp only [ChooseInv] at hInv
      refine ⟨iff_of_true rfl hInv, iff_of_true rfl (by rw [hInv]; simp), ?_, ?_, ?_⟩
      · rintro i (hi | hi) <;> simp at hi
      · intro i j hi
        simp at hi
      · rintro i j (hi | hi) <;> simp at hi
    | some b => exact absurd hInv (by simp [ChooseInv])
  | some a =>
    cases o2 with
    | none =>
      simp only [ChooseInv] at hInv
      refine ⟨iff_of_false (by simp) (by rw [hInv]; simp),
        iff_of_true rfl (by rw [hInv]; simp), ?_, ?_, ?_⟩
      · rintro i (hi | hi)
        · cases Option.some.inj hi
          exact mem_untriedIdxs.1 (by rw [hInv]; simp)
        · simp at hi
      · intro i j hi hj
        simp at hj
      · rintro i j hi hju h1 h2
        rw [hInv] at hju
        rcases List.mem_singleton.1 hju with rfl
        exact absurd rfl h1
    | some b =>
      obtain ⟨ha, hb, hab, hlen, hopt⟩ := hInv
      refine ⟨iff_of_false (by simp) (fun h => by rw [h] at hlen; simp at hlen),
        iff_of_false (by simp) (by omega), ?_, ?_, ?_⟩
      · rintro i (hi | hi)
        · cases Option.some.inj hi
          exact mem_untriedIdxs.1 ha
        · cases Option.some.inj hi
          exact mem_untriedIdxs.1 hb
      · intro i j hi hj
        cases Option.some.inj hi
        cases Option.some.inj hj
        exact hab
      · rintro i j (hi | hi) hju h1 h2
        · cases Option.some.inj hi
          have hja : j ≠ a := fun h => h1 (by rw [h])
          have hjb : j ≠ b := fun h => h2 (by rw [h])
          exact (hopt j hju hja hjb).1
        · cases Option.some.inj hi
          have hja : j ≠ a := fun h => h1 (by rw [h])
          have hjb : j ≠ b := fun h => h2 (by rw [h])
          exact (hopt j hju hja hjb).2

theorem chooseBackends_top_two_witness :
    1 ∈ untriedIdxs poolW [] ∧
    ¬ betterThan (poolGet poolW 1) (poolGet poolW 0) :=
  ⟨by decide, (chooseBackends_top_two poolW []).2.2.2.2 0 1 (Or.inl (by decide))
      (by decide) (by decide) (by decide)⟩

end Balancer

namespace Balancer

theorem nodup_bounded_length_le {l : List ℕ} {n : ℕ} (hnd : l.Nodup)
    (hb : ∀ a ∈ l, a < n) : l.length ≤ n := by
  have hsub : l.toFinset ⊆ Finset.range n := by
    intro x hx
    rw [List.mem_toFinset] at hx
    exact Finset.mem_range.2 (hb x hx)
  have hc := Finset.card_le_card hsub
  rwa [Finset.card_range, List.toFinset_card_of_nodup hnd] at hc

theorem untriedIdxs_ne_nil {pool : List Backend} {attempted : List ℕ}
    (hnd : attempted.Nodup) (hb : ∀ a ∈ attempted, a < pool.length)
    (hlen : attempted.length < pool.length) :
    untriedIdxs pool attempted ≠ [] := by
  intro h
  have hall : ∀ i, i < pool.length → i ∈ attempted := by
    intro i hi
    by_contra hno
    have hm : i ∈ untriedIdxs pool attempted := mem_untriedIdxs.2 ⟨hi, hno⟩
    rw [h] at hm
    simp at hm
  have hsub : Finset.range pool.length ⊆ attempted.toFinset := by
    intro x hx
    rw [List.mem_toFinset]
    exact hall x (Finset.mem_range.1 hx)
  have hc := Finset.card_le_card hsub
  rw [Finset.card_range, List.toFinset_card_of_nodup hnd] at hc
  omega

theorem totalRequests_set (pool : List Backend) (i : ℕ) (b : Backend)
    (h : i < pool.length) :
    totalRequests (pool.set i b) + (poolGet pool i).requestCount =
      totalRequests pool + b.requestCount := by
  induction pool generalizing i with
  | nil => simp at h
  | cons hd tl ih =>
    cases i with
    | zero =>
      simp only [List.set, totalRequests, List.map_cons, List.sum_cons, poolGet,
        List.getD_cons_zero]
      omega
    | succ n =>
      simp only [List.set, totalRequests, List.map_cons, List.sum_cons, poolGet,
        List.getD_cons_succ]
      have hih := ih n (by simpa using h)
      simp only [totalRequests, poolGet] at hih
      omega

theorem attemptUpdate_requestCount (cfg : Config) (b : Backend)
    (outcome : Option (ℕ × ℚ)) (t : ℚ) :
    (attemptUpdate cfg b outcome t).requestCount = b.requestCount + 1 := by
  have hpre : (if b.scoredRequestCount ≠ b.requestCount then (score cfg b t).1
      else b).requestCount = b.requestCount := by
    split
    · exact score_fst_requestCount cfg b t
    · rfl
  simp only [attemptUpdate]
  split
  · simp only [score_fst_requestCount, recordObs_requestCount, hpre]
  · simp only [recordObs_requestCount, hpre]

theorem canRetry_eq_true {method : String} {resp : Resp}
    (h5 : 500 ≤ resp.status) (hm : method = "GET" ∨ method = "HEAD") :
    canRetry method resp = true := by
  unfold canRetry
  rw [if_neg (by omega), if_pos hm]

theorem canRetry_method {method : String} {resp : Resp}
    (h : canRetry method resp = true) : method = "GET" ∨ method = "HEAD" := by
  unfold canRetry at h
  split at h
  · exact absurd h (by simp)
  · split at h
    · assumption
    · exact absurd h (by simp)

theorem fetchLoop_zero (cfg : Config) (method : String) (beh : ℕ → Option (ℕ × ℚ))
    (coin : ℕ → Bool) (now : ℕ → ℚ) (pool : List Backend) (attempted : List ℕ) :
    fetchLoop cfg method beh coin now pool attempted 0 = (pool, proxyError, attempted) :=
  rfl

theorem fetchLoop_succ_stop (cfg : Config) (method : String) (beh : ℕ → Option (ℕ × ℚ))
    (coin : ℕ → Bool) (now : ℕ → ℚ) (pool : List Backend) (attempted : List ℕ)
    (fuel : ℕ) (hlen : ¬ attempted.length < pool.length) :
    fetchLoop cfg method beh coin now pool attempted (fuel + 1) =
      (pool, proxyError, attempted) := by
  simp only [fetchLoop, if_neg hlen]

theorem fetchLoop_succ_eq (cfg : Config) (method : String) (beh : ℕ → Option (ℕ × ℚ))
    (coin : ℕ → Bool) (now : ℕ → ℚ) (pool : List Backend) (attempted : List ℕ)
    (fuel i1 : ℕ) (o2 : Option ℕ) (hlen : attempted.length < pool.length)
    (hch : chooseBackends pool attempted = (some i1, o2)) (idx : ℕ)
    (hidx : idx = pickIdx (coin attempted.length) i1 o2) :
    fetchLoop cfg method beh coin now pool attempted (fuel + 1) =
      (if 500 ≤ (respOf (beh idx)).status ∧ (respOf (beh idx)).status < 600 then
        if canRetry method (respOf (beh idx)) then
          fetchLoop cfg method beh coin now
            (pool.set idx (attemptUpdate cfg (poolGet pool idx) (beh idx)
              (now attempted.length)))
            (attempted ++ [idx]) fuel
        else
          (pool.set idx (attemptUpdate cfg (poolGet pool idx) (beh idx)
              (now attempted.length)),
            respOf (beh idx), attempted ++ [idx])
      else
        (pool.set idx (attemptUpdate cfg (poolGet pool idx) (beh idx)
            (now attempted.length)),
          respOf (beh idx), attempted ++ [idx])) := by
  subst hidx
  simp only [fetchLoop, if_pos hlen, hch]

end Balancer


namespace Balancer

theorem fetchLoop_spec (cfg : Config) (method : String) (beh : ℕ → Option (ℕ × ℚ))
    (coin : ℕ → Bool) (now : ℕ → ℚ) :
    ∀ (fuel : ℕ) (pool : List Backend) (attempted : List ℕ),
      attempted.Nodup → (∀ a ∈ attempted, a < pool.length) →
      ∃ ext : List ℕ,
        (fetchLoop cfg method beh coin now pool attempted fuel).2.2 = attempted ++ ext ∧
        (attempted ++ ext).Nodup ∧
        (∀ a ∈ attempted ++ ext, a < pool.length) ∧
        (fetchLoop cfg method beh coin now pool attempted fuel).1.length = pool.length ∧
        totalRequests (fetchLoop cfg method beh coin now pool attempted fuel).1 =
          totalRequests pool + ext.length ∧
        ((fetchLoop cfg method beh coin now pool attempted fuel).2.1.tag =
            RespTag.fromBackend →
          ∃ i, i < pool.length ∧ ∃ l : ℚ,
            beh i = some ((fetchLoop cfg method beh coin now pool attempted fuel).2.1.status, l)) ∧
        ((fetchLoop cfg method beh coin now pool attempted fuel).2.1.tag ≠
            RespTag.fromBackend →
          (fetchLoop cfg method beh coin now pool attempted fuel).2.1.status = 502) ∧
        ((∀ i, beh i = none) →
          (fetchLoop cfg method beh coin now pool attempted fuel).2.1 = proxyError) ∧
        ((method = "GET" ∨ method = "HEAD") →
          (∀ i, 500 ≤ (respOf (beh i)).status ∧ (respOf (beh i)).status < 600) →
          (fetchLoop cfg method beh coin now pool attempted fuel).2.1 = proxyError) ∧
        ((¬ (method = "GET" ∨ method = "HEAD") ∨
            (∀ i, (respOf (beh i)).status < 500)) →
          ext.length ≤ 1) ∧
        (0 < fuel → attempted.length < pool.length → 1 ≤ ext.length) := by
  intro fuel
  induction fuel with
  | zero =>
    intro pool attempted hnd hb
    rw [fetchLoop_zero]
    refine ⟨[], by simp, by simpa using hnd, by simpa using hb, rfl, by simp,
      ?_, fun _ => rfl, fun _ => rfl, fun _ _ => rfl, fun _ => by simp,
      fun h => absurd h (by omega)⟩
    intro h
    exact absurd h (by simp [proxyError])
  | succ fuel ih =>
    intro pool attempted hnd hb
    by_cases hlen : attempted.length < pool.length
    · obtain ⟨i1, hi1⟩ := (chooseBackends_mem pool attempted).2.2
        (untriedIdxs_ne_nil hnd hb hlen)
      rcases hch : chooseBackends pool attempted with ⟨o1, o2⟩
      have ho1 : o1 = some i1 := by
        rw [hch] at hi1
        exact hi1
      subst ho1
      have hrw := fetchLoop_succ_eq cfg method beh coin now pool attempted fuel i1 o2
        hlen hch _ rfl
      set I : ℕ := pickIdx (coin attempted.length) i1 o2 with hI
      have hImem : I ∈ untriedIdxs pool attempted := by
        rw [hI]
        cases o2 with
        | none => exact (chooseBackends_mem pool attempted).1 i1 (by rw [hch])
        | some i2 =>
          by_cases hc : coin attempted.length
          · simp only [pickIdx, hc, if_true]
            exact (chooseBackends_mem pool attempted).1 i1 (by rw [hch])
          · simp only [pickIdx, hc, if_false]
            exact (chooseBackends_mem pool attempted).2.1 i2 (by rw [hch])
      obtain ⟨hIlt, hInot⟩ := mem_untriedIdxs.1 hImem
      have hndA : (attempted ++ [I]).Nodup := by
        rw [List.nodup_append]
        exact ⟨hnd, by simp, fun a ha hb2 => hInot ((List.mem_singleton.1 hb2) ▸ ha)⟩
      have hbA : ∀ a ∈ attempted ++ [I],
          a < (pool.set I (attemptUpdate cfg (poolGet pool I) (beh I)
            (now attempted.length))).length := by
        rw [List.length_set]
        intro a ha
        rcases List.mem_append.1 ha with h | h
        · exact hb a h
        · rcases List.mem_singleton.1 h with rfl
          exact hIlt
      have htotP : totalRequests (pool.set I (attemptUpdate cfg (poolGet pool I) (beh I)
          (now attempted.length))) = totalRequests pool + 1 := by
        have h := totalRequests_set pool I
          (attemptUpdate cfg (poolGet pool I) (beh I) (now attempted.length)) hIlt
        rw [attemptUpdate_requestCount] at h
        omega
      by_cases h5 : 500 ≤ (respOf (beh I)).status ∧ (respOf (beh I)).status < 600
      · by_cases hr : canRetry method (respOf (beh I)) = true
        · rw [hrw, if_pos h5, if_pos hr]
          obtain ⟨ext', he1, he2, he3, he4, he5, he6, he7, he8, he9, he10, he11⟩ :=
            ih (pool.set I (attemptUpdate cfg (poolGet pool I) (beh I)
              (now attempted.length))) (attempted ++ [I]) hndA hbA
          rw [List.length_set] at he4
          refine ⟨I :: ext', ?_, ?_, ?_, he4, ?_, ?_, he7, he8, he9, ?_,
            fun _ _ => by simp⟩
          · rw [he1, List.append_assoc, List.singleton_append]
          · rw [← List.singleton_append, ← List.append_assoc]
            exact he2
          · intro a ha
            have ha' : a ∈ (attempted ++ [I]) ++ ext' := by
              rw [List.append_assoc, List.singleton_append]
              exact ha
            have h := he3 a ha'
            rwa [List.length_set] at h
          · rw [he5, htotP, List.length_cons]
            omega
          · intro h
            obtain ⟨i, hi, l, hl⟩ := he6 h
            rw [List.length_set] at hi
            exact ⟨i, hi, l, hl⟩
          · intro hcase
            exfalso
            rcases hcase with hm | hst
            · exact hm (canRetry_method hr)
            · have h := hst I
              omega
        · rw [hrw, if_pos h5, if_neg hr]
          refine ⟨[I], rfl, hndA, ?_, List.length_set pool I _, ?_, ?_, ?_, ?_, ?_,
            fun _ => by simp, fun _ _ => by simp⟩
          · intro a ha
            have h := hbA a ha
            rwa [List.length_set] at h
          · rw [htotP]
            simp
          · intro h
            rcases hbeh : beh I with _ | ⟨s, l⟩
            · simp [hbeh, respOf, proxyError] at h
            · refine ⟨I, hIlt, l, ?_⟩
              rw [hbeh]
              simp [respOf]
          · intro h
            rcases hbeh : beh I with _ | ⟨s, l⟩
            · rfl
            · simp [hbeh, respOf] at h
          · intro hall
            rw [hall I]
            rfl
          · intro hm hst
            exact absurd (canRetry_eq_true (hst I).1 hm) hr
      · rw [hrw, if_neg h5]
        refine ⟨[I], rfl, hndA, ?_, List.length_set pool I _, ?_, ?_, ?_, ?_, ?_,
          fun _ => by simp, fun _ _ => by simp⟩
        · intro a ha
          have h := hbA a ha
          rwa [List.length_set] at h
        · rw [htotP]
          simp
        · intro h
          rcases hbeh : beh I with _ | ⟨s, l⟩
          · simp [hbeh, respOf, proxyError] at h
          · refine ⟨I, hIlt, l, ?_⟩
            rw [hbeh]
            simp [respOf]
        · intro h
          rcases hbeh : beh I with _ | ⟨s, l⟩
          · rfl
          · simp [hbeh, respOf] at h
        · intro hall
          rw [hall I]
          rfl
        · intro hm hst
          exact absurd (hst I) h5
    · rw [fetchLoop_succ_stop cfg method beh coin now pool attempted fuel hlen]
      refine ⟨[], by simp, by simpa using hnd, by simpa using hb, rfl, by simp,
        ?_, fun _ => rfl, fun _ => rfl, fun _ _ => rfl, fun _ => by simp,
        fun _ h => absurd h hlen⟩
      intro h
      exact absurd h (by simp [proxyError])

end Balancer

namespace Balancer

/-- C5: the dispatcher never raises past its boundary: for every transport
behaviour, including transports that throw, the call returns a concrete
response with a status code — either a response produced by some backend, or
a synthetic 502 (the shared `proxyError` object, or the no-backend
response).  A thrown transport is converted into the synthetic 502
`proxyError`; in particular, when every transport throws, the caller
receives exactly that 502 response object. -/
theorem fetchBalancer_never_raises (cfg : Config) (method : String)
    (beh : ℕ → Option (ℕ × ℚ)) (coin : ℕ → Bool) (now : ℕ → ℚ)
    (pool : List Backend) :
    ((fetchBalancer cfg method beh coin now pool).2.1.tag = RespTag.fromBackend →
      ∃ i, i < pool.length ∧ ∃ l : ℚ,
        beh i = some ((fetchBalancer cfg method beh coin now pool).2.1.status, l)) ∧
    ((fetchBalancer cfg method beh coin now pool).2.1.tag ≠ RespTag.fromBackend →
      (fetchBalancer cfg method beh coin now pool).2.1.status = 502) ∧
    ((∀ i, beh i = none) →
      (fetchBalancer cfg method beh coin now pool).2.1 = proxyError) := by
  obtain ⟨ext, h1, h2, h3, h4, h5, h6, h7, h8, h9, h10, h11⟩ :=
    fetchLoop_spec cfg method beh coin now pool.length pool [] (by simp) (by simp)
  exact ⟨h6, h7, h8⟩

theorem fetchBalancer_never_raises_witness :
    (fetchBalancer cfg0 "GET" (fun _ => none) (fun _ => true) (fun _ => 0)
      [initBackend, initBackend]).2.1 = proxyError :=
  (fetchBalancer_never_raises cfg0 "GET" (fun _ => none) (fun _ => true) (fun _ => 0)
    [initBackend, initBackend]).2.2 (fun _ => rfl)

/-- C6: only requests whose method is case-sensitively GET or HEAD are ever
retried: for any other method — or whenever every backend outcome has a
status below 500 — the dispatch loop performs exactly one attempt and
returns that response immediately, so the total `requestCount` across the
whole pool increases by exactly 1 for the call. -/
theorem retry_idempotency_guard (cfg : Config) (method : String)
    (beh : ℕ → Option (ℕ × ℚ)) (coin : ℕ → Bool) (now : ℕ → ℚ)
    (pool : List Backend) (hne : pool ≠ [])
    (hc : ¬ (method = "GET" ∨ method = "HEAD") ∨
      (∀ i, (respOf (beh i)).status < 500)) :
    totalRequests (fetchBalancer cfg method beh coin now pool).1 =
      totalRequests pool + 1 ∧
    (fetchBalancer cfg method beh coin now pool).2.2.length = 1 := by
  obtain ⟨ext, h1, h2, h3, h4, h5, h6, h7, h8, h9, h10, h11⟩ :=
    fetchLoop_spec cfg method beh coin now pool.length pool [] (by simp) (by simp)
  have hlen : 0 < pool.length := List.length_pos.2 hne
  have hext : ext.length = 1 := by
    have ha := h10 hc
    have hb2 := h11 hlen (by simpa using hlen)
    omega
  constructor
  · show totalRequests (fetchLoop cfg method beh coin now pool [] pool.length).1 = _
    rw [h5, hext]
  · show (fetchLoop cfg method beh coin now pool [] pool.length).2.2.length = 1
    rw [h1]
    simpa using hext

theorem retry_idempotency_guard_witness :
    totalRequests (fetchBalancer cfg0 "POST" (fun _ => some (500, 1)) (fun _ => true)
      (fun _ => 0) [initBackend, initBackend]).1 =
      totalRequests [initBackend, initBackend] + 1 :=
  (retry_idempotency_guard cfg0 "POST" (fun _ => some (500, 1)) (fun _ => true)
    (fun _ => 0) [initBackend, initBackend] (by simp) (Or.inl (by decide))).1

/-- C9: one dispatch call attempts each backend at most once — the attempted
index list has no duplicates and holds only valid pool indices — so the loop
is bounded by the pool size; and when the request is retry-eligible
(GET/HEAD) and every backend outcome is 5xx-class, the pool is exhausted and
the call terminates by returning the generic 502 connectivity-failure
response (`proxyError`) rather than raising. -/
theorem dispatch_bounded_exhaustion (cfg : Config) (method : String)
    (beh : ℕ → Option (ℕ × ℚ)) (coin : ℕ → Bool) (now : ℕ → ℚ)
    (pool : List Backend) :
    (fetchBalancer cfg method beh coin now pool).2.2.Nodup ∧
    (fetchBalancer cfg method beh coin now pool).2.2.length ≤ pool.length ∧
    (∀ a ∈ (fetchBalancer cfg method beh coin now pool).2.2, a < pool.length) ∧
    ((method = "GET" ∨ method = "HEAD") →
      (∀ i, 500 ≤ (respOf (beh i)).status ∧ (respOf (beh i)).status < 600) →
      (fetchBalancer cfg method beh coin now pool).2.1 = proxyError) := by
  obtain ⟨ext, h1, h2, h3, h4, h5, h6, h7, h8, h9, h10, h11⟩ :=
    fetchLoop_spec cfg method beh coin now pool.length pool [] (by simp) (by simp)
  refine ⟨?_, ?_, ?_, h9⟩
  · show (fetchLoop cfg method beh coin now pool [] pool.length).2.2.Nodup
    rw [h1]
    exact h2
  · show (fetchLoop cfg method beh coin now pool [] pool.length).2.2.length ≤ _
    rw [h1]
    exact nodup_bounded_length_le h2 h3
  · show ∀ a ∈ (fetchLoop cfg method beh coin now pool [] pool.length).2.2, a < pool.length
    rw [h1]
    exact h3

theorem dispatch_bounded_exhaustion_witness :
    (fetchBalancer cfg0 "GET" (fun _ => some (500, 1)) (fun _ => true) (fun _ => 0)
      [initBackend, initBackend]).2.1 = proxyError :=
  (dispatch_bounded_exhaustion cfg0 "GET" (fun _ => some (500, 1)) (fun _ => true)
    (fun _ => 0) [initBackend, initBackend]).2.2.2 (Or.inl rfl) (fun i => by decide)

end Balancer

namespace Balancer

theorem round2_decay_unit {tw q : ℚ} (h1 : 0 ≤ tw) (h2 : tw ≤ 1)
    (h3 : 0 ≤ q) (h4 : q ≤ 1) :
    0 ≤ round2 (1 - tw * q) ∧ round2 (1 - tw * q) ≤ 1 := by
  have ha : 0 ≤ tw * q := mul_nonneg h1 h3
  have hb : tw * q ≤ 1 := by nlinarith
  exact round2_unit (by linarith) (by linarith)

theorem sortLatencies_entry_nonneg {ls : List (Option ℚ)}
    (hpos : ∀ o ∈ ls, ∀ x : ℚ, o = some x → 0 < x) :
    ∀ o ∈ sortLatencies ls, ∀ x : ℚ, o = some x → 0 ≤ x := by
  intro o ho x hx
  subst hx
  unfold sortLatencies at ho
  rcases List.mem_append.1 ho with h | h
  · obtain ⟨y, hy, hxy⟩ := List.mem_map.1 h
    have hyx : y = x := Option.some.inj hxy
    subst hyx
    have hy2 : y ∈ ls.filterMap id := (List.mem_insertionSort _).1 hy
    obtain ⟨a, ha, hfa⟩ := List.mem_filterMap.1 hy2
    exact le_of_lt (hpos a ha y hfa)
  · exact absurd (List.eq_of_mem_replicate h) (by simp)

theorem getD_entry_nonneg {l : List (Option ℚ)}
    (h : ∀ o ∈ l, ∀ x : ℚ, o = some x → 0 ≤ x) (i : ℕ) :
    0 ≤ ((l.getD i none).getD 0 : ℚ) := by
  rw [List.getD_eq_getElem?_getD]
  rcases hx : l[i]? with _ | o
  · simp
  · have hmem : o ∈ l := List.getElem?_mem hx
    rcases o with _ | x
    · simp
    · simpa using h _ hmem x rfl

theorem latencyFold_bounds (dev : ℚ) :
    ∀ (l : List (Option ℚ)) (acc : ℚ × ℕ),
      (∀ o ∈ l, ∀ x : ℚ, o = some x → 0 ≤ x) → 0 ≤ acc.1 →
      0 ≤ (l.foldl (latencyFoldStep dev) acc).1 ∧
      (l.foldl (latencyFoldStep dev) acc).2 ≤
        acc.2 + l.countP (fun o => o.isSome) := by
  intro l
  induction l with
  | nil =>
    intro acc _ h0
    exact ⟨h0, by simp⟩
  | cons o tl ih =>
    intro acc hpos h0
    have htl : ∀ o ∈ tl, ∀ x : ℚ, o = some x → 0 ≤ x := by
      intro o2 ho2 x hx
      exact hpos o2 (by simp [ho2]) x hx
    rw [List.foldl_cons]
    cases o with
    | none =>
      have hstep : latencyFoldStep dev acc none = acc := rfl
      rw [hstep]
      obtain ⟨hh1, hh2⟩ := ih acc htl h0
      refine ⟨hh1, ?_⟩
      have hcnt : (none :: tl : List (Option ℚ)).countP (fun o => o.isSome) =
          tl.countP (fun o => o.isSome) := by
        simp [List.countP_cons]
      rw [hcnt]
      omega
    | some x =>
      have hx : 0 ≤ x := hpos (some x) (by simp) x rfl
      have hcnt : (some x :: tl : List (Option ℚ)).countP (fun o => o.isSome) =
          tl.countP (fun o => o.isSome) + 1 := by
        simp [List.countP_cons]
      rw [hcnt]
      simp only [latencyFoldStep]
      split
      · obtain ⟨hh1, hh2⟩ := ih ((acc.1 + x) / 2, acc.2) htl (by positivity)
        dsimp only at hh2
        exact ⟨hh1, by omega⟩
      · obtain ⟨hh1, hh2⟩ := ih (acc.1, acc.2 + 1) htl h0
        dsimp only at hh2
        exact ⟨hh1, by omega⟩

theorem countP_isSome_sortLatencies (ls : List (Option ℚ)) :
    (sortLatencies ls).countP (fun o => o.isSome) = (ls.filterMap id).length := by
  unfold sortLatencies
  rw [List.countP_append]
  have h1 : (((ls.filterMap id).insertionSort (· ≤ ·)).map some).countP
      (fun o => o.isSome) = ((ls.filterMap id).insertionSort (· ≤ ·)).length := by
    rw [List.countP_map]
    simp [Function.comp_def]
  have h2 : (List.replicate (ls.length - (ls.filterMap id).length)
      (none : Option ℚ)).countP (fun o => o.isSome) = 0 := by
    rw [List.countP_eq_zero]
    intro a ha
    rw [List.eq_of_mem_replicate ha]
    simp
  rw [h1, h2, List.length_insertionSort]
  omega

theorem measuredCount_eq_length {ls : List (Option ℚ)}
    (hpos : ∀ o ∈ ls, ∀ x : ℚ, o = some x → 0 < x) :
    measuredCount ls = (ls.filterMap id).length := by
  rw [measuredCount_eq_countP]
  apply List.countP_eq_length.2
  intro x hx
  obtain ⟨a, ha, hfa⟩ := List.mem_filterMap.1 hx
  have hx0 : x ≠ 0 := ne_of_gt (hpos a ha x hfa)
  simp [hx0]

theorem pingScoreOf_bounds (cfg : Config) (avg : ℚ)
    (hexp : 0 < cfg.AVERAGE_LATENCY_EXPECTED) (havg : 0 ≤ avg) :
    0 ≤ pingScoreOf cfg avg ∧ pingScoreOf cfg avg ≤ 1 := by
  unfold pingScoreOf
  split
  · exact ⟨by norm_num, le_refl 1⟩
  · next hdisc =>
    have h1 : cfg.AVERAGE_LATENCY_EXPECTED < avg :=
      (one_lt_div hexp).1 (lt_of_not_le hdisc)
    have h2 : 0 < avg := lt_trans hexp h1
    exact ⟨le_of_lt (div_pos hexp h2), le_of_lt ((div_lt_one h2).2 h1)⟩

theorem instabilityScoreOf_bounds {c m : ℕ} (hc : c ≤ m) (hm : 0 < m) :
    0 ≤ instabilityScoreOf c m ∧ instabilityScoreOf c m ≤ 1 := by
  unfold instabilityScoreOf
  have hm0 : (0 : ℚ) < (m : ℚ) := by exact_mod_cast hm
  have hd0 : (0 : ℚ) ≤ (c : ℚ) / (m : ℚ) := by positivity
  have hd1 : (c : ℚ) / (m : ℚ) ≤ 1 := by
    rw [div_le_one hm0]
    exact_mod_cast hc
  exact ⟨by linarith, by linarith⟩

theorem rawLatencyScoreOf_bounds (cfg : Config) {ping instab : ℚ}
    (hiw0 : 0 ≤ cfg.LATENCY_SCORE_INSTABILITY_WEIGHT)
    (hiw1 : cfg.LATENCY_SCORE_INSTABILITY_WEIGHT ≤ 1)
    (hp : 0 ≤ ping ∧ ping ≤ 1) (hi : 0 ≤ instab ∧ instab ≤ 1) :
    0 ≤ rawLatencyScoreOf cfg ping instab ∧ rawLatencyScoreOf cfg ping instab ≤ 1 := by
  unfold rawLatencyScoreOf
  obtain ⟨hp0, hp1⟩ := hp
  obtain ⟨hi0, hi1⟩ := hi
  exact round2_unit (by nlinarith) (by nlinarith)

end Balancer

namespace Balancer

theorem score_latency_eq (cfg : Config) (b : Backend) (t : ℚ)
    (h : ¬ measuredCount b.latencies < 2) :
    (score cfg b t).1.latencyScore =
      round2 (1 - timeWeight b.lastError t *
        rawLatencyScoreOf cfg
          (pingScoreOf cfg
            (latencyFoldOf cfg (sortLatencies b.latencies)
              (middleLatencyOf (sortLatencies b.latencies)
                (measuredCount b.latencies))).1)
          (instabilityScoreOf
            (if 3 < measuredCount b.latencies then
              (latencyFoldOf cfg (sortLatencies b.latencies)
                (middleLatencyOf (sortLatencies b.latencies)
                  (measuredCount b.latencies))).2
             else 0)
            (measuredCount b.latencies))) := by
  simp only [score]
  rw [if_neg h]

/-- C3 (amended): the health and latency scores computed and stored by the
scorer lie in [0,1] provided every recorded latency sample is positive (no
zero-latency transport-failure samples), the count of 5xx statuses does not
exceed the measured sample count, the expected-latency baseline is positive,
and the instability weight lies in [0,1].  Without the transport-failure
proviso the invariant fails: a record with more 5xx statuses than measured
samples stores a negative healthScore (see the counterexample).  The final
combined score stays an unbounded weighted combination, as the claim says. -/
theorem score_bounds (cfg : Config) (b : Backend) (t : ℚ)
    (hm : 2 ≤ measuredCount b.latencies)
    (herr : errorStatusCount b.statuses ≤ measuredCount b.latencies)
    (hpos : ∀ o ∈ b.latencies, ∀ x : ℚ, o = some x → 0 < x)
    (hexp : 0 < cfg.AVERAGE_LATENCY_EXPECTED)
    (hiw0 : 0 ≤ cfg.LATENCY_SCORE_INSTABILITY_WEIGHT)
    (hiw1 : cfg.LATENCY_SCORE_INSTABILITY_WEIGHT ≤ 1) :
    (0 ≤ (score cfg b t).1.healthScore ∧ (score cfg b t).1.healthScore ≤ 1) ∧
    (0 ≤ (score cfg b t).1.latencyScore ∧ (score cfg b t).1.latencyScore ≤ 1) := by
  have hnm : ¬ measuredCount b.latencies < 2 := by omega
  have hm0 : (0 : ℚ) < (measuredCount b.latencies : ℚ) := by
    exact_mod_cast (by omega : 0 < measuredCount b.latencies)
  constructor
  · rw [(score_health_eq cfg b t hnm).1]
    have hq0 : 0 ≤ (errorStatusCount b.statuses : ℚ) /
        (measuredCount b.latencies : ℚ) := by positivity
    have hq1 : (errorStatusCount b.statuses : ℚ) /
        (measuredCount b.latencies : ℚ) ≤ 1 := by
      rw [div_le_one hm0]
      exact_mod_cast herr
    exact round2_decay_unit (timeWeight_nonneg _ _) (timeWeight_le_one _ _) hq0 hq1
  · rw [score_latency_eq cfg b t hnm]
    have hsortpos := sortLatencies_entry_nonneg hpos
    have hmid : 0 ≤ middleLatencyOf (sortLatencies b.latencies)
        (measuredCount b.latencies) := getD_entry_nonneg hsortpos _
    obtain ⟨havg, hbeyond⟩ := latencyFold_bounds cfg.LATENCY_DEVIATION_ALLOWED
      (sortLatencies b.latencies)
      (middleLatencyOf (sortLatencies b.latencies) (measuredCount b.latencies), 0)
      hsortpos hmid
    rw [countP_isSome_sortLatencies] at hbeyond
    dsimp only at hbeyond
    rw [Nat.zero_add] at hbeyond
    have hmeas := measuredCount_eq_length hpos
    have hcorr : (if 3 < measuredCount b.latencies then
        (latencyFoldOf cfg (sortLatencies b.latencies)
          (middleLatencyOf (sortLatencies b.latencies) (measuredCount b.latencies))).2
        else 0) ≤ measuredCount b.latencies := by
      split
      · rw [← hmeas] at hbeyond
        exact hbeyond
      · omega
    have hping := pingScoreOf_bounds cfg
      (latencyFoldOf cfg (sortLatencies b.latencies)
        (middleLatencyOf (sortLatencies b.latencies) (measuredCount b.latencies))).1
      hexp havg
    have hinstab := instabilityScoreOf_bounds hcorr (by omega)
    have hraw := rawLatencyScoreOf_bounds cfg hiw0 hiw1 hping hinstab
    exact round2_decay_unit (timeWeight_nonneg _ _) (timeWeight_le_one _ _) hraw.1 hraw.2

theorem score_bounds_witness :
    2 ≤ measuredCount demoBackend.latencies ∧
    0 ≤ (score cfg0 demoBackend 0).1.healthScore := by
  have hpos : ∀ o ∈ demoBackend.latencies, ∀ x : ℚ, o = some x → 0 < x := by
    intro o ho x hx
    subst hx
    have hlat : demoBackend.latencies = [some 50, some 60] ++ List.replicate 8 none := rfl
    rw [hlat] at ho
    simp [List.mem_replicate] at ho
    rcases ho with rfl | rfl
    · norm_num
    · norm_num
  refine ⟨by decide, (score_bounds cfg0 demoBackend 0 (by decide) (by decide) hpos
    (by norm_num [cfg0]) (by norm_num [cfg0]) (by norm_num [cfg0])).1.1⟩

end Balancer
